import Mathlib

/-!
Shallow embedding of the live-log core of the `bark` terminal log viewer
(source files `src/filter.rs`, `src/main.rs`, `src/ui.rs`).

Strings are modelled as `List Char`; byte offsets are computed from the
UTF-8 byte width of each character (`charBytes`).  Rust's `str::to_lowercase`
is modelled character-wise on the ASCII letters (`rustToLower`); the full
Unicode case tables are outside the scope of this embedding, so every lemma
about lowercasing is relative to that ASCII mapping.  The external `regex`
crate is modelled by an abstract compiled matcher (`CompiledRegex`) passed to
`ActiveFilter.new` in place of the value of `Regex::new(pattern).ok()`.
-/

namespace Bark

/-- UTF-8 byte width of a character (1 for ASCII, up to 4 for the highest
code points).  Models the byte length a Rust `char` contributes to a `str`. -/
def charBytes (c : Char) : Nat :=
  if c.toNat < 0x80 then 1
  else if c.toNat < 0x800 then 2
  else if c.toNat < 0x10000 then 3
  else 4

/-- Byte length of a string, i.e. Rust's `str::len`. -/
def utf8Len (s : List Char) : Nat := (s.map charBytes).sum

/-- Character-wise lowercasing restricted to the ASCII letters; models
Rust's `str::to_lowercase` on the character range this development uses. -/
def rustToLower : Char → Char
  | 'A' => 'a' | 'B' => 'b' | 'C' => 'c' | 'D' => 'd' | 'E' => 'e'
  | 'F' => 'f' | 'G' => 'g' | 'H' => 'h' | 'I' => 'i' | 'J' => 'j'
  | 'K' => 'k' | 'L' => 'l' | 'M' => 'm' | 'N' => 'n' | 'O' => 'o'
  | 'P' => 'p' | 'Q' => 'q' | 'R' => 'r' | 'S' => 's' | 'T' => 't'
  | 'U' => 'u' | 'V' => 'v' | 'W' => 'w' | 'X' => 'x' | 'Y' => 'y'
  | 'Z' => 'z'
  | c => c

/-- Lowercase form of a whole string (`String::to_lowercase`). -/
def strToLower (s : List Char) : List Char := s.map rustToLower

/-- Boolean test that `pat` is a prefix of `hay`; models Rust's
`str::starts_with` used implicitly by substring search. -/
def startsWith : List Char → List Char → Bool
  | _, [] => true
  | [], _ :: _ => false
  | c :: cs, p :: ps => c == p && startsWith cs ps

/-- Boolean substring containment, i.e. Rust's `str::contains`: some suffix
of `hay` starts with `pat`.  `strContains hay [] = true`, as in Rust. -/
def strContains : List Char → List Char → Bool
  | hay, pat =>
    startsWith hay pat ||
      match hay with
      | [] => false
      | _ :: rest => strContains rest pat

/-- A range representing a match within a line (`MatchRange` in
`src/filter.rs`): a half-open byte interval.  The Rust field `end` is a
Lean keyword, so it is called `stop` here. -/
structure MatchRange where
  start : Nat
  stop : Nat
deriving DecidableEq, Repr

/-- The loop body of `ActiveFilter::find_substring_matches`
(`src/filter.rs` lines 84-95) with `str::find` inlined: the loop repeatedly
locates the next occurrence of `patLower` in the remaining suffix of the
lowercased line — advancing one character at a time until `patLower` starts
at the current position is exactly `str::find` — then records the range
`[base, base + patBytes)` (where `patBytes` is the byte length of the
*original* pattern, `self.pattern.len()` in the source) and resumes the
search at the end byte offset of that match.  Because `rustToLower`
preserves `charBytes`, resuming `patBytes` bytes later is the same as
skipping the `patLower.length` matched characters.  `fuel` bounds the
`while` loop; `line.length` is always sufficient. -/
def scanAux (patLower : List Char) (patBytes : Nat) : Nat → List Char → Nat → List MatchRange
  | 0, _, _ => []
  | _ + 1, [], _ => []
  | fuel + 1, c :: rest, base =>
    if startsWith (c :: rest) patLower then
      ⟨base, base + patBytes⟩ ::
        scanAux patLower patBytes fuel ((c :: rest).drop patLower.length) (base + patBytes)
    else
      scanAux patLower patBytes fuel rest (base + charBytes c)

/-- The abstract interface of a compiled matcher from the external `regex`
crate: `Regex::is_match` and the list of ranges produced by
`Regex::find_iter`.  The crate is out of scope, so a compiled regex is just
this pair of functions. -/
structure CompiledRegex where
  is_match : List Char → Bool
  find_iter : List Char → List MatchRange

/-- A filter that can be applied to log lines (`ActiveFilter` in
`src/filter.rs`). -/
structure ActiveFilter where
  /-- The pattern string. -/
  pattern : List Char
  /-- Whether to treat the pattern as a regex. -/
  is_regex : Bool
  /-- Compiled regex (if `is_regex` is true and the pattern is valid). -/
  compiled : Option CompiledRegex
  /-- Lowercase pattern for case-insensitive substring matching. -/
  pattern_lower : List Char

/-- `ActiveFilter::new` (`src/filter.rs` lines 24-38).  `compileResult`
stands for the value of `Regex::new(&pattern).ok()`, the external crate's
compilation outcome; it is consulted iff `is_regex` is set. -/
def ActiveFilter.new (pattern : List Char) (is_regex : Bool)
    (compileResult : Option CompiledRegex) : ActiveFilter :=
  { pattern := pattern
    is_regex := is_regex
    compiled := if is_regex then compileResult else none
    pattern_lower := strToLower pattern }

/-- `ActiveFilter::matches` (`src/filter.rs` lines 41-53): regex mode uses
the compiled matcher when present and falls back to a case-sensitive
substring test on the raw pattern otherwise; literal mode is a
case-insensitive substring test. -/
def ActiveFilter.matches (f : ActiveFilter) (line : List Char) : Bool :=
  if f.is_regex then
    match f.compiled with
    | some regex => regex.is_match line
    | none => strContains line f.pattern
  else
    strContains (strToLower line) f.pattern_lower

/-- `ActiveFilter::find_substring_matches` (`src/filter.rs` lines 79-96):
empty lowercased pattern yields no matches; otherwise scan the lowercased
line from byte offset 0. -/
def ActiveFilter.find_substring_matches (f : ActiveFilter) (line : List Char) : List MatchRange :=
  if f.pattern_lower.isEmpty then []
  else scanAux f.pattern_lower (utf8Len f.pattern) line.length (strToLower line) 0

/-- `ActiveFilter::find_matches` (`src/filter.rs` lines 56-76). -/
def ActiveFilter.find_matches (f : ActiveFilter) (line : List Char) : List MatchRange :=
  if f.is_regex then
    match f.compiled with
    | some regex => regex.find_iter line
    | none => f.find_substring_matches line
  else
    f.find_substring_matches line

/-- Spec-side definition following the words of claim C4: find-matches
performed as "literal matching using the raw pattern text as a literal
string, case-sensitively (not using a lowercase form)" — the same scanning
loop, but run on the raw pattern over the raw line. -/
def rawLiteralFindMatches (pattern line : List Char) : List MatchRange :=
  if pattern.isEmpty then []
  else scanAux pattern (utf8Len pattern) line.length line 0

/-- Modelled from the regex crate's documented behavior on the empty
pattern (outside this repository's source): `Regex::new("")` succeeds, and
the compiled regex matches the empty string at every character boundary, so
`find_iter` yields a zero-width match at every boundary byte offset. -/
def emptyPatternRegex : CompiledRegex :=
  { is_match := fun _ => true
    find_iter := fun line =>
      (List.range (line.length + 1)).map fun j =>
        ⟨utf8Len (line.take j), utf8Len (line.take j)⟩ }

/-- `apply_horizontal_scroll` (`src/ui.rs` lines 17-24): drop the first
`offset` *characters* (not bytes) of the text. -/
def apply_horizontal_scroll (text : List Char) (offset : Nat) : List Char :=
  if offset = 0 then text else text.drop offset

/-- The match-range adjustment inlined in `draw_log_view`
(`src/ui.rs` lines 414-432): a match ending at or before the scroll offset
is dropped; a match starting before it is truncated to begin at 0; any
other match is shifted left by the offset.  Note the source compares the
byte offsets `m.start`/`m.end` directly against the character-unit scroll
offset. -/
def adjust_match_ranges (h_scroll : Nat) (ms : List MatchRange) : List MatchRange :=
  ms.filterMap fun m =>
    if m.stop ≤ h_scroll then none
    else if m.start < h_scroll then some ⟨0, m.stop - h_scroll⟩
    else some ⟨m.start - h_scroll, m.stop - h_scroll⟩

/-- The per-line match computation of `draw_log_view`
(`src/ui.rs` lines 410-434) for a plain (non-ANSI, single-line) row:
`state.get_match_ranges(raw)` is the active filter's `find_matches` on the
raw text, adjusted for the horizontal scroll only when the offset is
positive. -/
def draw_matches (f : ActiveFilter) (raw : List Char) (h_scroll : Nat) : List MatchRange :=
  if 0 < h_scroll then adjust_match_ranges h_scroll (f.find_matches raw)
  else f.find_matches raw

/-- Whether the character at index `j` of `text` lies entirely inside one of
the byte ranges `ms` — i.e. whether the renderer receives it highlighted. -/
def charHighlighted (text : List Char) (ms : List MatchRange) (j : Nat) : Bool :=
  let b := utf8Len (text.take j)
  ms.any fun m => decide (m.start ≤ b) && decide (b + charBytes (text.getD j default) ≤ m.stop)

/-- Byte-based take on a character list: keep leading characters while their
total byte width fits in `n`.  Models slicing `text[..n]`; it is used only
at character-boundary offsets (Rust panics off-boundary). -/
def byteTake : List Char → Nat → List Char
  | _, 0 => []
  | [], _ + 1 => []
  | c :: rest, n + 1 =>
    if charBytes c ≤ n + 1 then c :: byteTake rest (n + 1 - charBytes c) else []

/-- Byte-based drop on a character list: models slicing `text[n..]`; it is
used only at character-boundary offsets. -/
def byteDrop : List Char → Nat → List Char
  | s, 0 => s
  | [], _ + 1 => []
  | c :: rest, n + 1 => byteDrop rest (n + 1 - charBytes c)

/-- Byte-based slice `text[a..b]`. -/
def byteSlice (text : List Char) (a b : Nat) : List Char :=
  byteTake (byteDrop text a) (b - a)

/-- Boolean test that byte offset `b` is a character boundary of `text`. -/
def isBoundary (text : List Char) (b : Nat) : Bool :=
  (List.range (text.length + 1)).any fun j => utf8Len (text.take j) == b

/-- The loop body of `highlight_matches` (`src/ui.rs` lines 75-91): the
accumulator is the list of spans built so far together with `last_end`.
The gap before the match is emitted whenever `last_end < m.start`; the
match text itself is emitted (and `last_end` advanced) only when `m.end`
fits in the text.  A span is modelled as its text content paired with a
flag that is `true` for the highlight style and `false` for the base
style. -/
def hlStep (text : List Char) (acc : List (List Char × Bool) × Nat) (m : MatchRange) :
    List (List Char × Bool) × Nat :=
  let spans :=
    if acc.2 < m.start then acc.1 ++ [(byteSlice text acc.2 m.start, false)] else acc.1
  if m.stop ≤ utf8Len text then
    (spans ++ [(byteSlice text m.start m.stop, true)], m.stop)
  else (spans, acc.2)

/-- `highlight_matches` (`src/ui.rs` lines 62-99): with no matches, one
base-styled span holding the whole text; otherwise fold `hlStep` over the
ranges and emit the tail after the last consumed range. -/
def highlight_matches (text : List Char) (ms : List MatchRange) : List (List Char × Bool) :=
  if ms.isEmpty then [(text, false)]
  else
    let r := ms.foldl (hlStep text) ([], 0)
    if r.2 < utf8Len text then r.1 ++ [(byteSlice text r.2 (utf8Len text), false)]
    else r.1

/-- Concatenation of the span contents handed to the renderer. -/
def concatSpans (spans : List (List Char × Bool)) : List Char :=
  spans.foldr (fun p acc => p.1 ++ acc) []

/-- Modelled from the spec: the state the Filtered-Index Maintainer keeps
consistent (spec section 4.3; the `AppState` of `app.rs` is not under
`src/`): the append-only buffer of raw lines, the optional active filter,
and the ordered sequence of buffer indices currently passing it. -/
structure AppFilterState where
  buffer : List (List Char)
  active_filter : Option ActiveFilter
  filtered_indices : List Nat

/-- Modelled from the spec: the initial state — empty buffer, no filter;
with no filter the filtered index equals the (empty) full range. -/
def initState : AppFilterState :=
  { buffer := [], active_filter := none, filtered_indices := [] }

/-- Modelled from the spec (section 4.3, "New line appended"): append the
line; if a filter is active, evaluate `matches` on the new line only and
append its index when it passes; with no filter the full range is kept. -/
def push_line (s : AppFilterState) (t : List Char) : AppFilterState :=
  { buffer := s.buffer ++ [t]
    active_filter := s.active_filter
    filtered_indices :=
      match s.active_filter with
      | some f => if f.matches t then s.filtered_indices ++ [s.buffer.length]
                  else s.filtered_indices
      | none => s.filtered_indices ++ [s.buffer.length] }

/-- Modelled from the spec (section 4.3, "Filter changed"): the full rescan
performed when the debounce fires — rebuild the filtered index from scratch
in buffer order. -/
def apply_filter (s : AppFilterState) (f : ActiveFilter) : AppFilterState :=
  { buffer := s.buffer
    active_filter := some f
    filtered_indices :=
      (List.range s.buffer.length).filter fun i => f.matches (s.buffer.getD i []) }

/-- Modelled from the spec (section 4.3): clearing the filter restores the
full buffer index range without a rescan. -/
def clear_filter (s : AppFilterState) : AppFilterState :=
  { buffer := s.buffer
    active_filter := none
    filtered_indices := List.range s.buffer.length }

/-- The application states reachable from the initial state by the
maintainer's three transitions. -/
inductive Reachable : AppFilterState → Prop
  | init : Reachable initState
  | push (s : AppFilterState) (t : List Char) : Reachable s → Reachable (push_line s t)
  | apply (s : AppFilterState) (f : ActiveFilter) : Reachable s → Reachable (apply_filter s f)
  | clear (s : AppFilterState) : Reachable s → Reachable (clear_filter s)

/-- Modelled from the spec: the debounce state machine of section 4.3
(`check_filter_debounce` of `app.rs` is not under `src/`; `main.rs` line
148 shows it is invoked once per consumer-loop iteration).  `pending` is
`Idle`/`PendingRecompute(deadline)`; `pattern` is the current filter text;
`rescans` records, in order, the pattern used by each full rescan
performed. -/
structure DebState where
  pending : Option Nat
  pattern : List Char
  rescans : List (List Char)

/-- Modelled from the spec: an event observed by the debounce machine — a
filter edit at time `t` leaving filter text `p`, or a per-iteration check
at time `t`. -/
inductive DebEvent where
  | edit (t : Nat) (p : List Char)
  | check (t : Nat)

/-- Modelled from the spec (section 4.3): an edit sets the deadline to
`now + threshold` (resetting any earlier deadline); a check performs the
full rescan and returns to idle exactly when a deadline is pending and has
passed, and otherwise does nothing. -/
def deb_step (threshold : Nat) (s : DebState) : DebEvent → DebState
  | .edit t p => { s with pending := some (t + threshold), pattern := p }
  | .check t =>
    match s.pending with
    | some d =>
      if d ≤ t then { s with pending := none, rescans := s.rescans ++ [s.pattern] }
      else s
    | none => s

/-- Run the debounce machine over a sequence of events. -/
def deb_run (threshold : Nat) (s : DebState) (evs : List DebEvent) : DebState :=
  evs.foldl (deb_step threshold) s

/-- A trace is quiet when every check in it happens strictly before the
deadline pending at that moment (checks while idle are unrestricted): this
is the "edits keep arriving within the debounce threshold" regime, in which
no check ever observes an expired deadline. -/
def quietTrace (threshold : Nat) : Option Nat → List DebEvent → Bool
  | _, [] => true
  | _, .edit t _ :: rest => quietTrace threshold (some (t + threshold)) rest
  | pend, .check t :: rest =>
    match pend with
    | some d => if t < d then quietTrace threshold (some d) rest else false
    | none => quietTrace threshold none rest

/-- An event on the multiplexed queue (`LogEvent` in `sources`, consumed in
`src/main.rs` lines 180-192). -/
inductive LogEvent where
  | line (text : List Char)
  | error (msg : List Char)
  | endOfStream

/-- The consumer-loop state as far as the log-event arm of
`run_event_loop` touches it: `core` stands for every other `AppState`
component (buffer, filter, filtered index, sources, viewport), plus the
status message and the quit flag the loop inspects. -/
structure LoopState (σ : Type) where
  core : σ
  status_message : Option (List Char)
  should_quit : Bool

/-- The status text set for a producer error (`format!("Error: {}", msg)`,
`src/main.rs` line 186). -/
def errorStatus (msg : List Char) : List Char := "Error: ".toList ++ msg

/-- The status text set at end of stream (`src/main.rs` line 189). -/
def endOfStreamStatus : List Char := "Stream ended".toList

/-- The log-event arm of `run_event_loop` (`src/main.rs` lines 180-192):
a line is pushed via `AppState::push_line` (abstracted as `pushLine`, since
`app.rs` is not under `src/`); an error or end-of-stream event only sets
the status message. -/
def handle_log_event {σ : Type} (pushLine : LoopState σ → List Char → LoopState σ)
    (s : LoopState σ) : LogEvent → LoopState σ
  | .line t => pushLine s t
  | .error msg => { s with status_message := some (errorStatus msg) }
  | .endOfStream => { s with status_message := some endOfStreamStatus }

/-- The invariant carried through the substring-scanning loop when run on
the suffix of the lowercased line that starts at character index `j`:
ranges are sorted and non-overlapping, start at or after the current byte
offset, have width equal to the original pattern's byte length, and begin
at a character boundary where the lowercased line continues with the
lowercased pattern. -/
def ScanOut (pattern line : List Char) (j : Nat) (res : List MatchRange) : Prop :=
  List.Pairwise (fun a b => a.stop ≤ b.start) res ∧
  (∀ m ∈ res, utf8Len (line.take j) ≤ m.start) ∧
  ∀ m ∈ res, m.stop = m.start + utf8Len pattern ∧
    ∃ i, i ≤ line.length ∧ m.start = utf8Len (line.take i) ∧
      strToLower ((line.drop i).take pattern.length) = strToLower pattern

theorem charBytes_pos (c : Char) : 1 ≤ charBytes c := by
  unfold charBytes
  repeat' split
  all_goals omega

theorem charBytes_rustToLower (c : Char) : charBytes (rustToLower c) = charBytes c := by
  unfold rustToLower
  split <;> rfl

theorem utf8Len_nil : utf8Len [] = 0 := rfl

theorem utf8Len_cons (c : Char) (s : List Char) :
    utf8Len (c :: s) = charBytes c + utf8Len s := by
  simp [utf8Len]

theorem utf8Len_append (a b : List Char) :
    utf8Len (a ++ b) = utf8Len a + utf8Len b := by
  simp [utf8Len]

theorem strToLower_length (s : List Char) : (strToLower s).length = s.length := by
  simp [strToLower]

theorem utf8Len_strToLower (s : List Char) : utf8Len (strToLower s) = utf8Len s := by
  induction s with
  | nil => rfl
  | cons c t ih =>
    show utf8Len (rustToLower c :: strToLower t) = _
    rw [utf8Len_cons, utf8Len_cons, charBytes_rustToLower, ih]

theorem utf8Len_pos (s : List Char) (h : s ≠ []) : 1 ≤ utf8Len s := by
  cases s with
  | nil => cases h rfl
  | cons c t =>
    rw [utf8Len_cons]
    have := charBytes_pos c
    omega

theorem utf8Len_take_add (l : List Char) (a b : Nat) :
    utf8Len (l.take (a + b)) = utf8Len (l.take a) + utf8Len ((l.drop a).take b) := by
  rw [List.take_add, utf8Len_append]

theorem utf8Len_take_mono (l : List Char) {a b : Nat} (h : a ≤ b) :
    utf8Len (l.take a) ≤ utf8Len (l.take b) := by
  have hb : b = a + (b - a) := by omega
  rw [hb, utf8Len_take_add]
  omega

theorem utf8Len_take_lt (l : List Char) {a b : Nat} (h : a < b) (hb : b ≤ l.length) :
    utf8Len (l.take a) < utf8Len (l.take b) := by
  have hb' : b = a + (b - a) := by omega
  rw [hb', utf8Len_take_add]
  have hlen : 0 < ((l.drop a).take (b - a)).length := by
    simp only [List.length_take, List.length_drop]
    omega
  have := utf8Len_pos _ (List.length_pos.mp hlen)
  omega

theorem take_le_of_utf8Len_le (l : List Char) {a b : Nat}
    (h : utf8Len (l.take a) ≤ utf8Len (l.take b)) (ha : a ≤ l.length) : a ≤ b := by
  by_contra hab
  push_neg at hab
  have := utf8Len_take_lt l hab ha
  omega

theorem take_eq_of_utf8Len_eq (l : List Char) {a b : Nat}
    (h : utf8Len (l.take a) = utf8Len (l.take b)) (ha : a ≤ l.length) (hb : b ≤ l.length) :
    a = b :=
  le_antisymm (take_le_of_utf8Len_le l h.le ha) (take_le_of_utf8Len_le l h.ge hb)

theorem startsWith_spec (pat : List Char) : ∀ hay, startsWith hay pat = true →
    pat.length ≤ hay.length ∧ hay.take pat.length = pat := by
  induction pat with
  | nil =>
    intro hay _
    simp
  | cons p ps ih =>
    intro hay h
    cases hay with
    | nil => simp [startsWith] at h
    | cons c cs =>
      simp only [startsWith, Bool.and_eq_true, beq_iff_eq] at h
      obtain ⟨hce, hrest⟩ := h
      obtain ⟨h1, h2⟩ := ih cs hrest
      refine ⟨by simpa using h1, ?_⟩
      simp [List.take_succ_cons, hce, h2]

theorem byteDrop_zero (s : List Char) : byteDrop s 0 = s := by
  cases s <;> rfl

theorem byteTake_zero (s : List Char) : byteTake s 0 = [] := by
  cases s <;> rfl

theorem byteDrop_cons (c : Char) (rest : List Char) (n : Nat) (h : 1 ≤ n) :
    byteDrop (c :: rest) n = byteDrop rest (n - charBytes c) := by
  cases n with
  | zero => omega
  | succ k => rfl

theorem byteTake_cons (c : Char) (rest : List Char) (n : Nat) (h1 : 1 ≤ n)
    (h2 : charBytes c ≤ n) :
    byteTake (c :: rest) n = c :: byteTake rest (n - charBytes c) := by
  cases n with
  | zero => omega
  | succ k =>
    simp only [byteTake]
    rw [if_pos h2]

theorem byteDrop_boundary (l : List Char) : ∀ j : Nat, byteDrop l (utf8Len (l.take j)) = l.drop j := by
  induction l with
  | nil =>
    intro j
    simp [utf8Len_nil, byteDrop_zero]
  | cons c rest ih =>
    intro j
    cases j with
    | zero => simp [utf8Len_nil, byteDrop_zero]
    | succ k =>
      rw [List.take_succ_cons, utf8Len_cons]
      have hcb := charBytes_pos c
      rw [byteDrop_cons c rest _ (by omega)]
      have harith : charBytes c + utf8Len (rest.take k) - charBytes c = utf8Len (rest.take k) := by
        omega
      rw [harith, ih k, List.drop_succ_cons]

theorem byteTake_boundary (l : List Char) : ∀ j : Nat, byteTake l (utf8Len (l.take j)) = l.take j := by
  induction l with
  | nil =>
    intro j
    simp [utf8Len_nil, byteTake_zero]
  | cons c rest ih =>
    intro j
    cases j with
    | zero => simp [utf8Len_nil, byteTake_zero]
    | succ k =>
      rw [List.take_succ_cons, utf8Len_cons]
      have hcb := charBytes_pos c
      rw [byteTake_cons c rest _ (by omega) (by omega)]
      have harith : charBytes c + utf8Len (rest.take k) - charBytes c = utf8Len (rest.take k) := by
        omega
      rw [harith, ih k]

theorem byteSlice_boundary (l : List Char) (j1 j2 : Nat) (h12 : j1 ≤ j2) :
    byteSlice l (utf8Len (l.take j1)) (utf8Len (l.take j2)) = (l.drop j1).take (j2 - j1) := by
  unfold byteSlice
  rw [byteDrop_boundary]
  have h2 : j2 = j1 + (j2 - j1) := by omega
  have hsub : utf8Len (l.take j2) - utf8Len (l.take j1)
      = utf8Len ((l.drop j1).take (j2 - j1)) := by
    conv_lhs => rw [h2, utf8Len_take_add]
    omega
  rw [hsub, byteTake_boundary]

theorem scanAux_zero (pl : List Char) (pb : Nat) (s : List Char) (base : Nat) :
    scanAux pl pb 0 s base = [] := by
  cases s <;> rfl

theorem scanAux_nil (pl : List Char) (pb fuel base : Nat) :
    scanAux pl pb fuel [] base = [] := by
  cases fuel <;> rfl

theorem scanAux_cons (pl : List Char) (pb fuel : Nat) (c : Char) (rest : List Char) (base : Nat) :
    scanAux pl pb (fuel + 1) (c :: rest) base =
      if startsWith (c :: rest) pl then
        MatchRange.mk base (base + pb) ::
          scanAux pl pb fuel ((c :: rest).drop pl.length) (base + pb)
      else scanAux pl pb fuel rest (base + charBytes c) := rfl

theorem scanAux_spec (pattern ln : List Char) (hp : pattern ≠ []) :
    ∀ (fuel j : Nat), ln.length - j ≤ fuel →
    ScanOut pattern ln j
      (scanAux (strToLower pattern) (utf8Len pattern) fuel
        ((strToLower ln).drop j) (utf8Len (ln.take j))) := by
  have hplen : 1 ≤ pattern.length := List.length_pos.mpr hp
  intro fuel
  induction fuel with
  | zero =>
    intro j hj
    have hnil : (strToLower ln).drop j = [] := by
      rw [List.drop_eq_nil_iff, strToLower_length]
      omega
    rw [hnil, scanAux_nil]
    exact ⟨List.Pairwise.nil, by simp, by simp⟩
  | succ fuel ih =>
    intro j hj
    by_cases hjlen : j < ln.length
    · have hlt : j < (strToLower ln).length := by
        rw [strToLower_length]; exact hjlen
      have hdrop : (strToLower ln).drop j
          = rustToLower (ln[j]) :: (strToLower ln).drop (j + 1) := by
        rw [List.drop_eq_getElem_cons hlt]
        congr 1
        simp [strToLower]
      rw [hdrop, scanAux_cons]
      by_cases hs : startsWith
          (rustToLower (ln[j]) :: (strToLower ln).drop (j + 1))
          (strToLower pattern) = true
      · rw [if_pos hs]
        obtain ⟨hlen, htake⟩ := startsWith_spec _ _ hs
        have htake' : ((strToLower ln).drop j).take (strToLower pattern).length
            = strToLower pattern := by
          rw [hdrop]; exact htake
        have hkey : strToLower ((ln.drop j).take pattern.length) = strToLower pattern := by
          have : (strToLower ln).drop j = strToLower (ln.drop j) := by
            simp [strToLower]
          rw [this, strToLower_length] at htake'
          rw [← htake']
          simp [strToLower]
        have hblen : utf8Len ((ln.drop j).take pattern.length) = utf8Len pattern := by
          have := congrArg utf8Len hkey
          rwa [utf8Len_strToLower, utf8Len_strToLower] at this
        have hj' : utf8Len (ln.take (j + pattern.length))
            = utf8Len (ln.take j) + utf8Len pattern := by
          rw [utf8Len_take_add, hblen]
        have hsuffix : (rustToLower (ln[j]) :: (strToLower ln).drop (j + 1)).drop
              (strToLower pattern).length
            = (strToLower ln).drop (j + pattern.length) := by
          rw [← hdrop, List.drop_drop, strToLower_length]
        have hrec := ih (j + pattern.length) (by omega)
        rw [hsuffix]
        rw [hj'] at hrec
        refine ⟨?_, ?_, ?_⟩
        · refine List.pairwise_cons.mpr ⟨?_, hrec.1⟩
          intro m' hm'
          have hge := hrec.2.1 m' hm'
          rw [hj'] at hge
          exact hge
        · intro m hm
          rcases List.mem_cons.mp hm with h | h
          · rw [h]
          · have hge := hrec.2.1 m h
            have hmono := utf8Len_take_mono ln (Nat.le_add_right j pattern.length)
            omega
        · intro m hm
          rcases List.mem_cons.mp hm with h | h
          · rw [h]
            exact ⟨rfl, j, Nat.le_of_lt hjlen, rfl, hkey⟩
          · exact hrec.2.2 m h
      · rw [if_neg hs]
        have hcb : charBytes (rustToLower (ln[j])) = charBytes (ln[j]) :=
          charBytes_rustToLower _
        have hnext : utf8Len (ln.take j) + charBytes (rustToLower (ln[j]))
            = utf8Len (ln.take (j + 1)) := by
          rw [hcb]
          have hts : ln.take (j + 1) = ln.take j ++ [ln[j]] := by
            rw [List.take_succ]
            simp [List.getElem?_eq_getElem hjlen]
          rw [hts, utf8Len_append, utf8Len_cons, utf8Len_nil]
          omega
        have hrec := ih (j + 1) (by omega)
        rw [hnext]
        refine ⟨hrec.1, ?_, hrec.2.2⟩
        intro m hm
        have hge := hrec.2.1 m hm
        have hmono := utf8Len_take_mono ln (Nat.le_succ j)
        omega
    · have hnil : (strToLower ln).drop j = [] := by
        rw [List.drop_eq_nil_iff, strToLower_length]
        omega
      rw [hnil, scanAux_nil]
      exact ⟨List.Pairwise.nil, by simp, by simp⟩

theorem find_matches_literal (pattern line : List Char) (cr : Option CompiledRegex)
    (hp : pattern ≠ []) :
    (ActiveFilter.new pattern false cr).find_matches line
      = scanAux (strToLower pattern) (utf8Len pattern) line.length (strToLower line) 0 := by
  have hne : (strToLower pattern).isEmpty = false := by
    cases pattern with
    | nil => cases hp rfl
    | cons p ps => rfl
  simp [ActiveFilter.new, ActiveFilter.find_matches, ActiveFilter.find_substring_matches, hne]

/-- C1: for every literal-mode filter with a non-empty pattern and every
line of text, `find_matches` returns ranges that are pairwise
non-overlapping and sorted by start offset, each with end equal to start
plus the original pattern's byte length, whose text equals the pattern
case-insensitively; pattern "ab" against "ababab" yields exactly the three
ranges {0,2}, {2,4}, {4,6}. -/
theorem c1_literal_find_matches (pattern line : List Char) (cr : Option CompiledRegex)
    (hp : pattern ≠ []) :
    List.Pairwise (fun a b => a.stop ≤ b.start)
        ((ActiveFilter.new pattern false cr).find_matches line) ∧
    (∀ m ∈ (ActiveFilter.new pattern false cr).find_matches line,
        m.stop = m.start + utf8Len pattern ∧
        strToLower (byteSlice line m.start m.stop) = strToLower pattern) ∧
    (ActiveFilter.new "ab".toList false none).find_matches "ababab".toList
      = [⟨0, 2⟩, ⟨2, 4⟩, ⟨4, 6⟩] := by
  rw [find_matches_literal pattern line cr hp]
  have hspec := scanAux_spec pattern line hp line.length 0 (by omega)
  rw [List.drop_zero, List.take_zero, utf8Len_nil] at hspec
  refine ⟨hspec.1, ?_, by decide⟩
  intro m hm
  obtain ⟨hstop, i, hi, hstart, hkey⟩ := hspec.2.2 m hm
  refine ⟨hstop, ?_⟩
  have hblen : utf8Len ((line.drop i).take pattern.length) = utf8Len pattern := by
    have := congrArg utf8Len hkey
    rwa [utf8Len_strToLower, utf8Len_strToLower] at this
  have hstop' : m.stop = utf8Len (line.take (i + pattern.length)) := by
    rw [hstop, hstart, utf8Len_take_add, hblen]
  rw [hstart, hstop', byteSlice_boundary line i (i + pattern.length) (by omega)]
  have harith : i + pattern.length - i = pattern.length := by omega
  rw [harith]
  exact hkey

/-- Witness for C1 at pattern "a", line "xa". -/
theorem c1_witness :
    List.Pairwise (fun a b => a.stop ≤ b.start)
        ((ActiveFilter.new ['a'] false none).find_matches ['x', 'a']) ∧
    (∀ m ∈ (ActiveFilter.new ['a'] false none).find_matches ['x', 'a'],
        m.stop = m.start + utf8Len ['a'] ∧
        strToLower (byteSlice ['x', 'a'] m.start m.stop) = strToLower ['a']) ∧
    (ActiveFilter.new "ab".toList false none).find_matches "ababab".toList
      = [⟨0, 2⟩, ⟨2, 4⟩, ⟨4, 6⟩] :=
  c1_literal_find_matches ['a'] ['x', 'a'] none (by decide)

theorem startsWith_nil_left (pat : List Char) (h : pat ≠ []) : startsWith [] pat = false := by
  cases pat with
  | nil => cases h rfl
  | cons p ps => rfl

theorem scanAux_ne_nil_iff (pl : List Char) (hpl : pl ≠ []) (pb : Nat) :
    ∀ (fuel : Nat) (suffix : List Char) (base : Nat), suffix.length ≤ fuel →
    (scanAux pl pb fuel suffix base ≠ [] ↔ strContains suffix pl = true) := by
  intro fuel
  induction fuel with
  | zero =>
    intro suffix base hlen
    have hsuf : suffix = [] := List.length_eq_zero.mp (by omega)
    subst hsuf
    rw [scanAux_zero]
    simp [strContains, startsWith_nil_left pl hpl]
  | succ fuel ih =>
    intro suffix base hlen
    cases suffix with
    | nil =>
      rw [scanAux_nil]
      simp [strContains, startsWith_nil_left pl hpl]
    | cons c rest =>
      rw [scanAux_cons]
      by_cases hs : startsWith (c :: rest) pl = true
      · rw [if_pos hs]
        simp [strContains, hs]
      · rw [if_neg hs]
        rw [ih rest (base + charBytes c) (by simpa using hlen)]
        rw [Bool.not_eq_true] at hs
        simp [strContains, hs]

theorem matches_literal (pattern ln : List Char) (cr : Option CompiledRegex) :
    (ActiveFilter.new pattern false cr).matches ln
      = strContains (strToLower ln) (strToLower pattern) := by
  simp [ActiveFilter.new, ActiveFilter.matches]

/-- C2 (amended): for every literal-mode filter with a *non-empty* pattern
and every valid-regex filter satisfying the regex crate's contract that
`is_match` agrees with the non-emptiness of `find_iter`, `matches` is true
iff `find_matches` is non-empty.  (The original claim also covered the
empty literal pattern, where it fails: see the counterexample.) -/
theorem c2_matches_iff_find_matches :
    (∀ pattern : List Char, pattern ≠ [] → ∀ (ln : List Char) (cr : Option CompiledRegex),
      ((ActiveFilter.new pattern false cr).matches ln = true ↔
        (ActiveFilter.new pattern false cr).find_matches ln ≠ [])) ∧
    (∀ (pattern ln : List Char) (r : CompiledRegex),
      (r.is_match ln = true ↔ r.find_iter ln ≠ []) →
      ((ActiveFilter.new pattern true (some r)).matches ln = true ↔
        (ActiveFilter.new pattern true (some r)).find_matches ln ≠ [])) := by
  constructor
  · intro pattern hp ln cr
    rw [matches_literal, find_matches_literal pattern ln cr hp]
    have hpl : strToLower pattern ≠ [] := by
      cases pattern with
      | nil => cases hp rfl
      | cons p ps => simp [strToLower]
    have hiff := scanAux_ne_nil_iff (strToLower pattern) hpl (utf8Len pattern)
      ln.length (strToLower ln) 0 (by simp [strToLower_length])
    exact hiff.symm
  · intro pattern ln r hr
    simpa [ActiveFilter.new, ActiveFilter.matches, ActiveFilter.find_matches] using hr

/-- Witness for C2 at a literal filter "a" on "a" and a regex filter with a
concrete compiled matcher on "b". -/
theorem c2_witness :
    ((ActiveFilter.new ['a'] false none).matches ['a'] = true ↔
      (ActiveFilter.new ['a'] false none).find_matches ['a'] ≠ []) ∧
    ((ActiveFilter.new ['a'] true (some emptyPatternRegex)).matches ['b'] = true ↔
      (ActiveFilter.new ['a'] true (some emptyPatternRegex)).find_matches ['b'] ≠ []) :=
  ⟨c2_matches_iff_find_matches.1 ['a'] (by decide) ['a'] none,
   c2_matches_iff_find_matches.2 ['a'] ['b'] emptyPatternRegex (by decide)⟩

/-- C2 counterexample: for the empty literal pattern, `matches` is true
(Rust's `contains("")` holds of every string) while `find_matches` is
empty, so the equivalence claimed for *all* literal filters fails. -/
theorem c2_counterexample :
    ¬ ((ActiveFilter.new [] false none).matches [] = true ↔
       (ActiveFilter.new [] false none).find_matches [] ≠ []) := by
  decide

/-- C3 counterexample: with regex mode selected the empty pattern compiles
successfully (modelled by `emptyPatternRegex`), and `find_matches` returns
the compiled matcher's zero-width matches — a non-empty sequence — so the
claim's regex-mode half fails. -/
theorem c3_counterexample :
    ¬ ((ActiveFilter.new [] true (some emptyPatternRegex)).find_matches ['x'] = []) := by
  decide

/-- C3 (amended): for every filter whose pattern is empty and that carries
no compiled matcher — literal mode with any compile outcome, or regex mode
when compilation produced none — `find_matches` returns the empty sequence
for every text, and the construction is total (no configuration error). -/
theorem c3_empty_pattern_no_matches :
    (∀ (cr : Option CompiledRegex) (ln : List Char),
      (ActiveFilter.new [] false cr).find_matches ln = []) ∧
    (∀ ln : List Char, (ActiveFilter.new [] true none).find_matches ln = []) := by
  constructor <;> intros <;>
    simp [ActiveFilter.new, ActiveFilter.find_matches, ActiveFilter.find_substring_matches,
      strToLower]

/-- C4 counterexample: for the invalid regex pattern "(A", `find_matches`
on the line "(a" finds a (case-insensitive) match, whereas matching the raw
pattern case-sensitively — as the claim states — finds none. -/
theorem c4_counterexample :
    ¬ ((ActiveFilter.new ['(', 'A'] true none).find_matches ['(', 'a']
        = rawLiteralFindMatches ['(', 'A'] ['(', 'a']) := by
  decide

/-- C4 (amended): when regex compilation failed, `find_matches` delegates
to the same case-insensitive lowercased-pattern substring algorithm as
literal mode (it is `matches`, not `find_matches`, that uses the raw
pattern case-sensitively on this path). -/
theorem c4_invalid_regex_fallback (pattern ln : List Char) (cr : Option CompiledRegex) :
    (ActiveFilter.new pattern true none).find_matches ln
      = (ActiveFilter.new pattern false cr).find_matches ln := by
  simp [ActiveFilter.new, ActiveFilter.find_matches, ActiveFilter.find_substring_matches]

/-- C5: constructing an `ActiveFilter` always yields a usable filter — the
construction is a total function whose pattern fields are always populated;
regex compilation is consulted iff regex mode is selected (in literal mode
the compiled matcher is `none` whatever the compile outcome); and with the
invalid regex pattern "(" (no compiled matcher) the filter still matches
any text containing the literal "(". -/
theorem c5_compile_total_fallback :
    (∀ (pattern : List Char) (is_regex : Bool) (cr : Option CompiledRegex),
        (ActiveFilter.new pattern is_regex cr).pattern = pattern ∧
        (ActiveFilter.new pattern is_regex cr).pattern_lower = strToLower pattern) ∧
    (∀ (pattern : List Char) (cr : Option CompiledRegex),
        (ActiveFilter.new pattern false cr).compiled = none) ∧
    (∀ (pattern : List Char) (cr : Option CompiledRegex),
        (ActiveFilter.new pattern true cr).compiled = cr) ∧
    (∀ ln : List Char, strContains ln ['('] = true →
        (ActiveFilter.new ['('] true none).matches ln = true) := by
  refine ⟨fun p r cr => ⟨rfl, rfl⟩, fun p cr => rfl, fun p cr => rfl, ?_⟩
  intro ln h
  simpa [ActiveFilter.new, ActiveFilter.matches] using h

/-- Witness for C5 at concrete patterns and the line "f(x". -/
theorem c5_witness :
    ((ActiveFilter.new ['x'] false none).pattern = ['x'] ∧
      (ActiveFilter.new ['x'] false none).pattern_lower = strToLower ['x']) ∧
    (ActiveFilter.new ['x'] false (some emptyPatternRegex)).compiled = none ∧
    (ActiveFilter.new ['x'] true (some emptyPatternRegex)).compiled = some emptyPatternRegex ∧
    (ActiveFilter.new ['('] true none).matches ['f', '(', 'x'] = true :=
  ⟨c5_compile_total_fallback.1 ['x'] false none,
   c5_compile_total_fallback.2.1 ['x'] (some emptyPatternRegex),
   c5_compile_total_fallback.2.2.1 ['x'] (some emptyPatternRegex),
   c5_compile_total_fallback.2.2.2 ['f', '(', 'x'] (by decide)⟩

/-- C6: in every reachable application state the filtered index is strictly
increasing, all its elements are indices present in the buffer, each of
them passes the active filter when one is set, and with no active filter it
equals the full buffer index range. -/
theorem c6_filtered_index_invariant (s : AppFilterState) (h : Reachable s) :
    List.Pairwise (· < ·) s.filtered_indices ∧
    (∀ i ∈ s.filtered_indices, i < s.buffer.length) ∧
    (∀ f, s.active_filter = some f → ∀ i ∈ s.filtered_indices,
        f.matches (s.buffer.getD i []) = true) ∧
    (s.active_filter = none → s.filtered_indices = List.range s.buffer.length) := by
  induction h with
  | init =>
    refine ⟨List.Pairwise.nil, by simp [initState], by simp [initState], by simp [initState]⟩
  | push s t _ ih =>
    obtain ⟨ihpw, ihlt, ihmatch, ihnone⟩ := ih
    cases haf : s.active_filter with
    | none =>
      have hrange := ihnone haf
      refine ⟨?_, ?_, ?_, ?_⟩
      · simp only [push_line, haf, hrange]
        rw [← List.range_succ]
        exact List.pairwise_lt_range _
      · intro i hi
        simp only [push_line, haf, hrange, ← List.range_succ] at hi
        simp only [push_line, List.length_append, List.length_cons, List.length_nil]
        exact List.mem_range.mp hi
      · intro f hf
        simp [push_line, haf] at hf
      · intro _
        simp only [push_line, haf, hrange, ← List.range_succ, List.length_append,
          List.length_cons, List.length_nil]
    | some f0 =>
      by_cases hm : f0.matches t = true
      · refine ⟨?_, ?_, ?_, ?_⟩
        · simp only [push_line, haf, hm, if_pos]
          rw [List.pairwise_append]
          refine ⟨ihpw, List.pairwise_singleton _ _, ?_⟩
          intro a ha b hb
          simp only [List.mem_singleton] at hb
          subst hb
          exact ihlt a ha
        · intro i hi
          simp only [push_line, haf, hm, if_pos, List.mem_append,
            List.mem_singleton] at hi
          simp only [push_line, List.length_append, List.length_cons, List.length_nil]
          rcases hi with hi | hi
          · have := ihlt i hi
            omega
          · omega
        · intro f hf i hi
          simp only [push_line, haf, Option.some_inj] at hf
          subst hf
          simp only [push_line, haf, hm, if_pos, List.mem_append,
            List.mem_singleton] at hi
          rcases hi with hi | hi
          · have hlt := ihlt i hi
            simp only [push_line]
            rw [List.getD_append s.buffer [t] [] i hlt]
            exact ihmatch f0 haf i hi
          · subst hi
            simp only [push_line]
            rw [List.getD_append_right s.buffer [t] [] s.buffer.length (Nat.le_refl _)]
            simpa using hm
        · intro hf
          simp [push_line, haf] at hf
      · refine ⟨?_, ?_, ?_, ?_⟩
        · simpa only [push_line, haf, hm, if_neg] using ihpw
        · intro i hi
          simp only [push_line, haf, hm, if_neg, Bool.false_eq_true] at hi
          simp only [push_line, List.length_append, List.length_cons, List.length_nil]
          have := ihlt i hi
          omega
        · intro f hf i hi
          simp only [push_line, haf, Option.some_inj] at hf
          subst hf
          simp only [push_line, haf, hm, if_neg, Bool.false_eq_true] at hi
          have hlt := ihlt i hi
          simp only [push_line]
          rw [List.getD_append s.buffer [t] [] i hlt]
          exact ihmatch f0 haf i hi
        · intro hf
          simp [push_line, haf] at hf
  | apply s f _ ih =>
    refine ⟨?_, ?_, ?_, ?_⟩
    · exact List.Pairwise.sublist (List.filter_sublist _) (List.pairwise_lt_range _)
    · intro i hi
      simp only [apply_filter] at hi ⊢
      exact List.mem_range.mp (List.mem_of_mem_filter hi)
    · intro f' hf' i hi
      simp only [apply_filter, Option.some_inj] at hf'
      subst hf'
      simp only [apply_filter] at hi ⊢
      have hpred := List.of_mem_filter hi
      simpa using hpred
    · intro hf
      simp [apply_filter] at hf
  | clear s _ ih =>
    refine ⟨List.pairwise_lt_range _, ?_, ?_, fun _ => rfl⟩
    · intro i hi
      simp only [clear_filter] at hi ⊢
      exact List.mem_range.mp hi
    · intro f hf
      simp [clear_filter] at hf

/-- Witness for C6 at the state reached by pushing one line from the
initial state. -/
theorem c6_witness :
    List.Pairwise (· < ·) (push_line initState ['a']).filtered_indices ∧
    (∀ i ∈ (push_line initState ['a']).filtered_indices,
        i < (push_line initState ['a']).buffer.length) ∧
    (∀ f, (push_line initState ['a']).active_filter = some f →
        ∀ i ∈ (push_line initState ['a']).filtered_indices,
          f.matches ((push_line initState ['a']).buffer.getD i []) = true) ∧
    ((push_line initState ['a']).active_filter = none →
        (push_line initState ['a']).filtered_indices
          = List.range (push_line initState ['a']).buffer.length) :=
  c6_filtered_index_invariant (push_line initState ['a'])
    (Reachable.push initState ['a'] Reachable.init)

theorem deb_run_nil (threshold : Nat) (s : DebState) : deb_run threshold s [] = s := rfl

theorem deb_run_cons (threshold : Nat) (s : DebState) (e : DebEvent) (evs : List DebEvent) :
    deb_run threshold s (e :: evs) = deb_run threshold (deb_step threshold s e) evs := rfl

theorem deb_run_append (threshold : Nat) (s : DebState) (evs evs' : List DebEvent) :
    deb_run threshold s (evs ++ evs') = deb_run threshold (deb_run threshold s evs) evs' := by
  simp [deb_run, List.foldl_append]

theorem quiet_run_rescans (threshold : Nat) :
    ∀ (evs : List DebEvent) (s : DebState), quietTrace threshold s.pending evs = true →
    (deb_run threshold s evs).rescans = s.rescans := by
  intro evs
  induction evs with
  | nil =>
    intro s _
    rfl
  | cons e rest ih =>
    intro s hq
    cases e with
    | edit t p =>
      rw [deb_run_cons]
      have hq' : quietTrace threshold (some (t + threshold)) rest = true := hq
      have hstep : (deb_step threshold s (DebEvent.edit t p)).pending = some (t + threshold) := rfl
      have := ih (deb_step threshold s (DebEvent.edit t p)) (by rw [hstep]; exact hq')
      rw [this]
      rfl
    | check t =>
      rw [deb_run_cons]
      cases hp : s.pending with
      | none =>
        have hq' : quietTrace threshold none rest = true := by
          simpa [quietTrace, hp] using hq
        have hstep : deb_step threshold s (DebEvent.check t) = s := by
          simp [deb_step, hp]
        rw [hstep]
        exact ih s (by rw [hp]; exact hq')
      | some d =>
        have hq0 : (if t < d then quietTrace threshold (some d) rest else false) = true := by
          simpa [quietTrace, hp] using hq
        by_cases htd : t < d
        · rw [if_pos htd] at hq0
          have hstep : deb_step threshold s (DebEvent.check t) = s := by
            simp [deb_step, hp]
            omega
          rw [hstep]
          exact ih s (by rw [hp]; exact hq0)
        · rw [if_neg htd] at hq0
          cases hq0

theorem idle_checks_fixed (threshold : Nat) :
    ∀ (ts : List Nat) (s : DebState), s.pending = none →
    deb_run threshold s (ts.map DebEvent.check) = s := by
  intro ts
  induction ts with
  | nil =>
    intro s _
    rfl
  | cons t rest ih =>
    intro s hp
    rw [List.map_cons, deb_run_cons]
    have hstep : deb_step threshold s (DebEvent.check t) = s := by
      simp [deb_step, hp]
    rw [hstep]
    exact ih s hp

/-- C7: while filter edits keep arriving within the debounce threshold —
i.e. along any quiet trace, in which every per-iteration check happens
strictly before the pending deadline — no full rescan occurs; and when the
deadline pending after that trace has passed, the next check performs
exactly one full rescan, using the final pattern, after which the machine
is idle and any further checks change nothing. -/
theorem c7_debounce_single_rescan (threshold : Nat) (s : DebState) (evs : List DebEvent)
    (t d : Nat) (more : List Nat)
    (hq : quietTrace threshold s.pending evs = true)
    (hd : (deb_run threshold s evs).pending = some d) (hdt : d ≤ t) :
    (deb_run threshold s evs).rescans = s.rescans ∧
    deb_run threshold s (evs ++ DebEvent.check t :: more.map DebEvent.check)
      = { pending := none, pattern := (deb_run threshold s evs).pattern,
          rescans := s.rescans ++ [(deb_run threshold s evs).pattern] } := by
  have hres := quiet_run_rescans threshold evs s hq
  refine ⟨hres, ?_⟩
  have hsplit : (DebEvent.check t :: more.map DebEvent.check)
      = [DebEvent.check t] ++ more.map DebEvent.check := rfl
  rw [hsplit, ← List.append_assoc, deb_run_append, deb_run_append]
  have hfire : deb_run threshold (deb_run threshold s evs) [DebEvent.check t]
      = { pending := none, pattern := (deb_run threshold s evs).pattern,
          rescans := s.rescans ++ [(deb_run threshold s evs).pattern] } := by
    show deb_step threshold (deb_run threshold s evs) (DebEvent.check t) = _
    simp only [deb_step, hd, hres]
    rw [if_pos hdt]
  rw [hfire]
  exact idle_checks_fixed threshold more _ rfl

/-- Witness for C7: two edits 60 time units apart (threshold 100) with
checks in between, then a check after the deadline and one more after
that. -/
theorem c7_witness :
    (deb_run 100 ⟨none, [], []⟩
        [DebEvent.edit 0 ['a'], DebEvent.check 50, DebEvent.edit 60 ['a', 'b'],
          DebEvent.check 100]).rescans = (⟨none, [], []⟩ : DebState).rescans ∧
    deb_run 100 ⟨none, [], []⟩
        ([DebEvent.edit 0 ['a'], DebEvent.check 50, DebEvent.edit 60 ['a', 'b'],
          DebEvent.check 100] ++ DebEvent.check 200 :: [300].map DebEvent.check)
      = { pending := none,
          pattern := (deb_run 100 ⟨none, [], []⟩
            [DebEvent.edit 0 ['a'], DebEvent.check 50, DebEvent.edit 60 ['a', 'b'],
              DebEvent.check 100]).pattern,
          rescans := (⟨none, [], []⟩ : DebState).rescans ++
            [(deb_run 100 ⟨none, [], []⟩
              [DebEvent.edit 0 ['a'], DebEvent.check 50, DebEvent.edit 60 ['a', 'b'],
                DebEvent.check 100]).pattern] } :=
  c7_debounce_single_rescan 100 ⟨none, [], []⟩
    [DebEvent.edit 0 ['a'], DebEvent.check 50, DebEvent.edit 60 ['a', 'b'],
      DebEvent.check 100] 200 160 [300] (by decide) (by decide) (by decide)

theorem adjust_cons_drop (k : Nat) (m : MatchRange) (rest : List MatchRange)
    (h : m.stop ≤ k) :
    adjust_match_ranges k (m :: rest) = adjust_match_ranges k rest := by
  simp [adjust_match_ranges, List.filterMap_cons, h]

theorem adjust_cons_straddle (k : Nat) (m : MatchRange) (rest : List MatchRange)
    (h1 : ¬ m.stop ≤ k) (h2 : m.start < k) :
    adjust_match_ranges k (m :: rest)
      = MatchRange.mk 0 (m.stop - k) :: adjust_match_ranges k rest := by
  simp [adjust_match_ranges, List.filterMap_cons, h1, h2]

theorem adjust_cons_shift (k : Nat) (m : MatchRange) (rest : List MatchRange)
    (h1 : ¬ m.stop ≤ k) (h2 : ¬ m.start < k) :
    adjust_match_ranges k (m :: rest)
      = MatchRange.mk (m.start - k) (m.stop - k) :: adjust_match_ranges k rest := by
  simp [adjust_match_ranges, List.filterMap_cons, h1, h2]

theorem adjust_any_eq (k j : Nat) (hk : k ≤ j) :
    ∀ ms : List MatchRange,
    ((adjust_match_ranges k ms).any fun m =>
        decide (m.start ≤ j - k) && decide (j - k + 1 ≤ m.stop))
      = (ms.any fun m => decide (m.start ≤ j) && decide (j + 1 ≤ m.stop)) := by
  intro ms
  induction ms with
  | nil => rfl
  | cons m rest ih =>
    by_cases h1 : m.stop ≤ k
    · rw [adjust_cons_drop k m rest h1, ih, List.any_cons, ← Bool.decide_and,
        decide_eq_false (by omega : ¬(m.start ≤ j ∧ j + 1 ≤ m.stop)), Bool.false_or]
    · by_cases h2 : m.start < k
      · rw [adjust_cons_straddle k m rest h1 h2, List.any_cons, List.any_cons, ih]
        congr 1
        dsimp only
        rw [← Bool.decide_and, ← Bool.decide_and]
        exact decide_eq_decide.mpr (by omega)
      · rw [adjust_cons_shift k m rest h1 h2, List.any_cons, List.any_cons, ih]
        congr 1
        dsimp only
        rw [← Bool.decide_and, ← Bool.decide_and]
        exact decide_eq_decide.mpr (by omega)

theorem utf8Len_eq_length (s : List Char) (h : ∀ c ∈ s, charBytes c = 1) :
    utf8Len s = s.length := by
  induction s with
  | nil => rfl
  | cons c t ih =>
    rw [utf8Len_cons, h c (List.mem_cons_self c t),
      ih (fun x hx => h x (List.mem_cons_of_mem c hx)), List.length_cons]
    omega

theorem charHighlighted_ascii (s : List Char) (ms : List MatchRange) (j : Nat)
    (h : ∀ c ∈ s, charBytes c = 1) (hj : j < s.length) :
    charHighlighted s ms j
      = ms.any fun m => decide (m.start ≤ j) && decide (j + 1 ≤ m.stop) := by
  have h1 : utf8Len (s.take j) = j := by
    rw [utf8Len_eq_length _ (fun c hc => h c (List.take_subset j s hc))]
    rw [List.length_take]
    omega
  have h2 : charBytes (s.getD j default) = 1 := by
    rw [List.getD_eq_getElem s default hj]
    exact h _ (List.getElem_mem hj)
  simp only [charHighlighted]
  rw [h1, h2]

/-- C8 (amended): for every displayed line all of whose characters are
single-byte (so that the source's comparison of byte-offset match ranges
against the character-unit scroll offset is coherent), the displayed text
is the original with its first `k` characters removed, and the re-clipped
ranges highlight exactly the characters highlighted in the unscrolled
line.  (For multi-byte lines the byte/character unit mismatch breaks this:
see the counterexample.) -/
theorem c8_scroll_highlight (f : ActiveFilter) (raw : List Char) (k j : Nat)
    (hascii : ∀ c ∈ raw, charBytes c = 1) (hj : j < raw.length) (hk : k ≤ j) :
    apply_horizontal_scroll raw k = raw.drop k ∧
    charHighlighted (apply_horizontal_scroll raw k) (draw_matches f raw k) (j - k)
      = charHighlighted raw (f.find_matches raw) j := by
  have hdrop : apply_horizontal_scroll raw k = raw.drop k := by
    unfold apply_horizontal_scroll
    split
    · next h => rw [h, List.drop_zero]
    · rfl
  refine ⟨hdrop, ?_⟩
  rw [hdrop]
  have hascii' : ∀ c ∈ raw.drop k, charBytes c = 1 := fun c hc =>
    hascii c (List.drop_subset k raw hc)
  have hj' : j - k < (raw.drop k).length := by
    rw [List.length_drop]
    omega
  rw [charHighlighted_ascii raw (f.find_matches raw) j hascii hj,
    charHighlighted_ascii (raw.drop k) (draw_matches f raw k) (j - k) hascii' hj']
  unfold draw_matches
  by_cases hkpos : 0 < k
  · rw [if_pos hkpos]
    exact adjust_any_eq k j hk (f.find_matches raw)
  · rw [if_neg hkpos]
    have hk0 : k = 0 := by omega
    subst hk0
    simp

/-- Witness for C8 at the all-ASCII line "xab", filter "a", scroll 1. -/
theorem c8_witness :
    apply_horizontal_scroll ['x', 'a', 'b'] 1 = ['x', 'a', 'b'].drop 1 ∧
    charHighlighted (apply_horizontal_scroll ['x', 'a', 'b'] 1)
        (draw_matches (ActiveFilter.new ['a'] false none) ['x', 'a', 'b'] 1) (1 - 1)
      = charHighlighted ['x', 'a', 'b']
          ((ActiveFilter.new ['a'] false none).find_matches ['x', 'a', 'b']) 1 :=
  c8_scroll_highlight (ActiveFilter.new ['a'] false none) ['x', 'a', 'b'] 1 1
    (by decide) (by decide) (by decide)

/-- C8 counterexample: on the line "éa" ('é' is two bytes) with literal
filter "a" and scroll offset 1, the character 'a' is highlighted in the
unscrolled line but, after the byte ranges are clipped against the
character offset, not in the scrolled line — the highlighted regions do
not cover the same characters. -/
theorem c8_counterexample :
    ¬ (charHighlighted (apply_horizontal_scroll ['é', 'a'] 1)
          (draw_matches (ActiveFilter.new ['a'] false none) ['é', 'a'] 1) (1 - 1)
        = charHighlighted ['é', 'a']
            ((ActiveFilter.new ['a'] false none).find_matches ['é', 'a']) 1) := by
  decide

/-- C9: when the consumer loop dequeues a producer `Error` or an
`EndOfStream` event, the only state change is setting the status message:
the rest of the application state (`core`, which contains the sources — so
no source is removed) and the quit flag are unchanged, hence the loop,
which exits only on the quit flag, continues serving producers and input. -/
theorem c9_error_events_nonfatal {σ : Type} (pushLine : LoopState σ → List Char → LoopState σ)
    (s : LoopState σ) (msg : List Char) :
    handle_log_event pushLine s (LogEvent.error msg)
        = { s with status_message := some (errorStatus msg) } ∧
    handle_log_event pushLine s LogEvent.endOfStream
        = { s with status_message := some endOfStreamStatus } ∧
    (handle_log_event pushLine s (LogEvent.error msg)).core = s.core ∧
    (handle_log_event pushLine s (LogEvent.error msg)).should_quit = s.should_quit ∧
    (handle_log_event pushLine s LogEvent.endOfStream).core = s.core ∧
    (handle_log_event pushLine s LogEvent.endOfStream).should_quit = s.should_quit :=
  ⟨rfl, rfl, rfl, rfl, rfl, rfl⟩

theorem concatSpans_foldr (a : List (List Char × Bool)) (init : List Char) :
    a.foldr (fun p acc => p.1 ++ acc) init = concatSpans a ++ init := by
  induction a with
  | nil => simp [concatSpans]
  | cons x t ih =>
    simp only [concatSpans, List.foldr_cons] at ih ⊢
    rw [ih, List.append_assoc]

theorem concatSpans_append (a b : List (List Char × Bool)) :
    concatSpans (a ++ b) = concatSpans a ++ concatSpans b := by
  show (a ++ b).foldr (fun p acc => p.1 ++ acc) [] = _
  rw [List.foldr_append, concatSpans_foldr]
  rfl

theorem concatSpans_singleton (x : List Char × Bool) : concatSpans [x] = x.1 := by
  simp [concatSpans]

theorem isBoundary_exists (text : List Char) (b : Nat) (h : isBoundary text b = true) :
    ∃ j, j ≤ text.length ∧ utf8Len (text.take j) = b := by
  unfold isBoundary at h
  rw [List.any_eq_true] at h
  obtain ⟨j, hj, hb⟩ := h
  rw [List.mem_range] at hj
  rw [beq_iff_eq] at hb
  exact ⟨j, by omega, hb⟩

theorem hlFold (text : List Char) :
    ∀ (ms : List MatchRange) (spans0 : List (List Char × Bool)) (e : Nat),
    e ≤ text.length →
    List.Pairwise (fun a b => a.stop ≤ b.start) ms →
    (∀ m ∈ ms, m.start ≤ m.stop ∧ m.stop ≤ utf8Len text ∧
        isBoundary text m.start = true ∧ isBoundary text m.stop = true) →
    (∀ m ∈ ms, utf8Len (text.take e) ≤ m.start) →
    ∃ (e' : Nat) (spans' : List (List Char × Bool)),
      e' ≤ text.length ∧ e ≤ e' ∧
      ms.foldl (hlStep text) (spans0, utf8Len (text.take e)) = (spans', utf8Len (text.take e')) ∧
      concatSpans spans' ++ text.drop e' = concatSpans spans0 ++ text.drop e := by
  intro ms
  induction ms with
  | nil =>
    intro spans0 e he _ _ _
    exact ⟨e, spans0, he, Nat.le_refl e, rfl, rfl⟩
  | cons m rest ih =>
    intro spans0 e he hpw hbounds hfirst
    obtain ⟨hms, hmlen, hbs, hbe⟩ := hbounds m (List.mem_cons_self m rest)
    obtain ⟨js, hjs, hjs_eq⟩ := isBoundary_exists text m.start hbs
    obtain ⟨jt, hjt, hjt_eq⟩ := isBoundary_exists text m.stop hbe
    have hejs : e ≤ js := by
      apply take_le_of_utf8Len_le text _ he
      rw [hjs_eq]
      exact hfirst m (List.mem_cons_self m rest)
    have hjsjt : js ≤ jt := by
      apply take_le_of_utf8Len_le text _ hjs
      rw [hjs_eq, hjt_eq]
      exact hms
    have hpw' := List.pairwise_cons.mp hpw
    have hdropjt : text.drop jt = (text.drop js).drop (jt - js) := by
      rw [List.drop_drop]
      congr 1
      omega
    have hdropjs : text.drop js = (text.drop e).drop (js - e) := by
      rw [List.drop_drop]
      congr 1
      omega
    have hslice_match : byteSlice text m.start m.stop = (text.drop js).take (jt - js) := by
      rw [← hjs_eq, ← hjt_eq]
      exact byteSlice_boundary text js jt hjsjt
    rw [List.foldl_cons]
    by_cases hgap : utf8Len (text.take e) < m.start
    · have hstep : hlStep text (spans0, utf8Len (text.take e)) m
          = ((spans0 ++ [(byteSlice text (utf8Len (text.take e)) m.start, false)])
              ++ [(byteSlice text m.start m.stop, true)], m.stop) := by
        simp only [hlStep]
        rw [if_pos hgap, if_pos hmlen]
      rw [hstep]
      obtain ⟨e'', spans'', hlen'', hle'', hfold'', hconcat''⟩ :=
        ih ((spans0 ++ [(byteSlice text (utf8Len (text.take e)) m.start, false)])
              ++ [(byteSlice text m.start m.stop, true)]) jt hjt
          hpw'.2
          (fun m' hm' => hbounds m' (List.mem_cons_of_mem m hm'))
          (fun m' hm' => by rw [hjt_eq]; exact hpw'.1 m' hm')
      rw [hjt_eq] at hfold''
      refine ⟨e'', spans'', hlen'', by omega, hfold'', ?_⟩
      have hslice_gap : byteSlice text (utf8Len (text.take e)) m.start
          = (text.drop e).take (js - e) := by
        rw [← hjs_eq]
        exact byteSlice_boundary text e js hejs
      have key : byteSlice text (utf8Len (text.take e)) m.start
          ++ (byteSlice text m.start m.stop ++ text.drop jt) = text.drop e := by
        rw [hslice_gap, hslice_match, hdropjt, List.take_append_drop, hdropjs,
          List.take_append_drop]
      calc concatSpans spans'' ++ text.drop e''
          = concatSpans ((spans0 ++ [(byteSlice text (utf8Len (text.take e)) m.start, false)])
              ++ [(byteSlice text m.start m.stop, true)]) ++ text.drop jt := hconcat''
        _ = concatSpans spans0 ++ (byteSlice text (utf8Len (text.take e)) m.start
              ++ (byteSlice text m.start m.stop ++ text.drop jt)) := by
            simp only [concatSpans_append, concatSpans_singleton, List.append_assoc]
        _ = concatSpans spans0 ++ text.drop e := by rw [key]
    · have hejs_eq : e = js := by
        apply take_eq_of_utf8Len_eq text _ he hjs
        rw [hjs_eq]
        have := hfirst m (List.mem_cons_self m rest)
        omega
      have hstep : hlStep text (spans0, utf8Len (text.take e)) m
          = (spans0 ++ [(byteSlice text m.start m.stop, true)], m.stop) := by
        simp only [hlStep]
        rw [if_neg hgap, if_pos hmlen]
      rw [hstep]
      obtain ⟨e'', spans'', hlen'', hle'', hfold'', hconcat''⟩ :=
        ih (spans0 ++ [(byteSlice text m.start m.stop, true)]) jt hjt
          hpw'.2
          (fun m' hm' => hbounds m' (List.mem_cons_of_mem m hm'))
          (fun m' hm' => by rw [hjt_eq]; exact hpw'.1 m' hm')
      rw [hjt_eq] at hfold''
      refine ⟨e'', spans'', hlen'', by omega, hfold'', ?_⟩
      have key : byteSlice text m.start m.stop ++ text.drop jt = text.drop e := by
        rw [hslice_match, hdropjt, List.take_append_drop, hejs_eq]
      calc concatSpans spans'' ++ text.drop e''
          = concatSpans (spans0 ++ [(byteSlice text m.start m.stop, true)])
              ++ text.drop jt := hconcat''
        _ = concatSpans spans0 ++ (byteSlice text m.start m.stop ++ text.drop jt) := by
            simp only [concatSpans_append, concatSpans_singleton, List.append_assoc]
        _ = concatSpans spans0 ++ text.drop e := by rw [key]

/-- C10: for every text and every list of match ranges that is sorted by
start, pairwise non-overlapping, within the text's byte length, and on
character boundaries, the concatenation of the span contents produced by
`highlight_matches` is exactly the input text; and when a range's end
exceeds the byte length that preservation is not guaranteed (on "ab" with
the single range {1,3}, the gap before the skipped range is emitted and
then re-emitted in the tail, duplicating a character). -/
theorem c10_highlight_concat (text : List Char) (ms : List MatchRange)
    (hpw : List.Pairwise (fun a b => a.stop ≤ b.start) ms)
    (hbounds : ∀ m ∈ ms, m.start ≤ m.stop ∧ m.stop ≤ utf8Len text ∧
        isBoundary text m.start = true ∧ isBoundary text m.stop = true) :
    concatSpans (highlight_matches text ms) = text ∧
    concatSpans (highlight_matches ['a', 'b'] [⟨1, 3⟩]) ≠ ['a', 'b'] := by
  refine ⟨?_, by decide⟩
  cases hms : ms with
  | nil =>
    simp [highlight_matches, concatSpans]
  | cons m0 rest =>
    subst hms
    have hne : (m0 :: rest).isEmpty = false := rfl
    unfold highlight_matches
    rw [hne]
    simp only [Bool.false_eq_true, if_false]
    have h0 : (0 : Nat) = utf8Len (text.take 0) := by rw [List.take_zero, utf8Len_nil]
    obtain ⟨e', spans', hlen', _, hfold', hconcat'⟩ :=
      hlFold text (m0 :: rest) [] 0 (Nat.zero_le _) hpw hbounds
        (fun m' _ => by rw [List.take_zero, utf8Len_nil]; exact Nat.zero_le _)
    rw [List.take_zero, utf8Len_nil] at hfold'
    rw [hfold']
    rw [List.drop_zero] at hconcat'
    have hconcat0 : concatSpans spans' ++ text.drop e' = text := by
      rw [hconcat']
      rfl
    by_cases hlast : utf8Len (text.take e') < utf8Len text
    · rw [if_pos hlast]
      have hfull : utf8Len text = utf8Len (text.take text.length) := by
        rw [List.take_length]
      rw [hfull, byteSlice_boundary text e' text.length hlen']
      have htail : (text.drop e').take (text.length - e') = text.drop e' := by
        apply List.take_of_length_le
        rw [List.length_drop]
      rw [htail, concatSpans_append, concatSpans_singleton]
      exact hconcat0
    · rw [if_neg hlast]
      have he' : e' = text.length := by
        apply take_eq_of_utf8Len_eq text _ hlen' (Nat.le_refl _)
        rw [List.take_length]
        have hmono := utf8Len_take_mono text hlen'
        rw [List.take_length] at hmono
        omega
      rw [he'] at hconcat0
      rw [List.drop_length, List.append_nil] at hconcat0
      exact hconcat0

/-- Witness for C10 at the text "abc" with the single boundary-aligned
range {1,2}. -/
theorem c10_witness :
    concatSpans (highlight_matches ['a', 'b', 'c'] [⟨1, 2⟩]) = ['a', 'b', 'c'] ∧
    concatSpans (highlight_matches ['a', 'b'] [⟨1, 3⟩]) ≠ ['a', 'b'] :=
  c10_highlight_concat ['a', 'b', 'c'] [⟨1, 2⟩]
    (List.pairwise_singleton _ _) (by decide)

end Bark
